import Mathlib

/-!
Verification development for the `langchain_mongodb` glue package
(`docstores.py` and `retrievers/parent_document.py`).

The embedding is shallow and executable:
* a stored record is an ordered association list of field names to BSON-like
  values (Python dicts preserve insertion order and have unique keys; the
  dict-literal and dict-update semantics are modelled by `dictInsert`);
* the MongoDB collection is the ordered list of its records;
* fallible Python code (KeyError / ValueError / pydantic validation /
  duplicate-key errors from the driver) is modelled with explicit error values;
* the aggregation-pipeline stages built by `_get_relevant_documents` are given
  their documented MongoDB semantics, stage by stage.
-/

/-- BSON-like values inside a subdocument (one nesting level, which is all the
field paths used by the code require). -/
inductive SVal where
  | str : String → SVal
  | int : Int → SVal
deriving DecidableEq, Repr

/-- BSON-like values stored in record fields: strings, integers, numeric
arrays (embedding vectors), and one level of subdocument. -/
inductive BVal where
  | str : String → BVal
  | int : Int → BVal
  | vec : List Int → BVal
  | sub : List (String × SVal) → BVal
deriving DecidableEq, Repr

/-- A stored record: an ordered association list of fields, as a Python dict. -/
abbrev BDoc := List (String × BVal)

/-- A langchain `Document`: page content plus metadata. -/
structure Document where
  page_content : String
  metadata : BDoc
deriving DecidableEq, Repr

/-- Errors surfaced by the Python code: `ValueError` (failed unpacking, bad
`range` step), `KeyError` (`dict.pop` on a missing key), pydantic validation
errors (non-string page content), and the driver's duplicate-key error. -/
inductive MErr where
  | valueError
  | keyError
  | validationErr
  | dupKey
deriving DecidableEq, Repr

/-- Field access on a record (`d[k]` / `d.get(k)`): first (only) entry wins. -/
def getField (r : BDoc) (k : String) : Option BVal :=
  (r.find? (fun p => p.1 == k)).map (·.2)

/-- Python dict assignment `d[k] = v`: updates the value in place if the key
exists (keeping its position), otherwise appends the new entry. -/
def dictInsert (d : BDoc) (k : String) (v : BVal) : BDoc :=
  if d.any (fun p => p.1 == k) then
    d.map (fun p => if p.1 == k then (k, v) else p)
  else d ++ [(k, v)]

/-- Remove the (first) entry with the given key, keeping the order of the
rest; on a real dict this is exactly key removal. -/
def eraseField : BDoc → String → BDoc
  | [], _ => []
  | p :: ps, k => if p.1 == k then ps else p :: eraseField ps k

/-- Python `d.pop(k)`: the value and the remaining dict, or `none` (KeyError)
when the key is absent. -/
def popField (r : BDoc) (k : String) : Option (BVal × BDoc) :=
  match getField r k with
  | some v => some (v, eraseField r k)
  | none => none

/-- Modelled from the spec: `make_serializable` (`langchain_mongodb.utils`,
not under src/). The spec treats serialization helpers as external
collaborators; on this value domain (no ObjectId / datetime values) the
helper changes nothing, so it is the identity. -/
def make_serializable (r : BDoc) : BDoc := r

/-- The record built by `MongoDBDocStore.insert_many` for one (id, text,
metadata) triple: the Python dict literal
`\x7b"_id": i, text_key: t, **m\x7d`, evaluated left to right with dict
semantics (later duplicate keys override earlier entries in place). -/
def mkRecord (tk : String) (k : String) (d : Document) : BDoc :=
  d.metadata.foldl (fun acc q => dictInsert acc q.1 q.2)
    (dictInsert (dictInsert [] "_id" (.str k)) tk (.str d.page_content))

/-- One document insert inside `Collection.insert_many`: MongoDB rejects a
record whose `_id` equals the `_id` of a record already in the collection. -/
def insertRecord (st : List BDoc) (r : BDoc) : Except MErr (List BDoc) :=
  if st.any (fun x => getField x "_id" == getField r "_id") then .error .dupKey
  else .ok (st ++ [r])

/-- `Collection.insert_many` on prepared records (ordered insert, the PyMongo
default): inserts one record at a time and stops at the first duplicate key,
leaving the records inserted so far in place and reporting the error. -/
def insertManyRun (st : List BDoc) : List BDoc → List BDoc × Option MErr
  | [] => (st, none)
  | r :: rest =>
    match insertRecord st r with
    | .ok st' => insertManyRun st' rest
    | .error e => (st, some e)

/-- `MongoDBDocStore.insert_many`: build the flattened records and bulk
insert them. -/
def insert_many (tk : String) (st : List BDoc) (pairs : List (String × Document)) :
    List BDoc × Option MErr :=
  insertManyRun st (pairs.map (fun p => mkRecord tk p.1 p.2))

/-- `DEFAULT_INSERT_BATCH_SIZE` from `docstores.py`. -/
def DEFAULT_INSERT_BATCH_SIZE : Nat := 100000

/-- Python `range(start, stop, step)` for a positive step. -/
def pyRange (start stop step : Nat) : List Nat :=
  (List.range ((stop - start + step - 1) / step)).map (fun i => start + i * step)

/-- The batches `docs[start:end]` cut by the loop in `MongoDBDocStore.mset`:
`end` ranges over `range(batch_size, n + batch_size, batch_size)` and `start`
is always `end - batch_size`. -/
def msetBatches (bsz : Nat) (pairs : List (String × Document)) :
    List (List (String × Document)) :=
  (pyRange bsz (pairs.length + bsz) bsz).map
    (fun e => (pairs.take e).drop (e - bsz))

/-- The batch lengths produced by `msetBatches`, as a function of the input
length alone. -/
def chunkLens (n bsz : Nat) : List Nat :=
  (pyRange bsz (n + bsz) bsz).map (fun e => min e n - (e - bsz))

/-- Outcome of a batched upsert: the collection state reached, how many
insert calls were issued, and the error that escaped (if any). -/
structure MsetOut where
  state : List BDoc
  calls : Nat
  err : Option MErr
deriving DecidableEq, Repr

/-- The batch loop of `MongoDBDocStore.mset`: issue one insert call per
batch, in order; an insert error escapes at once (uncaught, unretried), so no
later batch is issued and earlier batches stay inserted. -/
def msetRun (tk : String) (st : List BDoc) : List (List (String × Document)) → MsetOut
  | [] => ⟨st, 0, none⟩
  | b :: bs =>
    match insert_many tk st b with
    | (st', none) =>
      let o := msetRun tk st' bs
      ⟨o.state, o.calls + 1, o.err⟩
    | (st', some e) => ⟨st', 1, some e⟩

/-- `MongoDBDocStore.mset`: `keys, docs = zip(*key_value_pairs)` raises
`ValueError` on an empty sequence before any insert; `range` with step 0
also raises `ValueError` before any insert; otherwise the input is cut into
batches and inserted batch by batch. -/
def mset (tk : String) (st : List BDoc) (pairs : List (String × Document))
    (bsz : Nat) : MsetOut :=
  if pairs.isEmpty then ⟨st, 0, some .valueError⟩
  else if bsz == 0 then ⟨st, 0, some .valueError⟩
  else msetRun tk st (msetBatches bsz pairs)

/-- The filter `\x7b"_id": \x7b"$in": keys\x7d\x7d` used by `mget` and
`mdelete`: a record matches iff its `_id` is one of the given strings. -/
def matchPred (keys : List String) (r : BDoc) : Bool :=
  match getField r "_id" with
  | some (.str k) => keys.contains k
  | _ => false

/-- The loop body of `MongoDBDocStore.mget` over the found records:
`text = res.pop(text_key)`; `key = res.pop("_id")`;
`make_serializable(res)`; `found_docs[key] = Document(text, res)`.
A missing pop key is a `KeyError`; non-string page content fails pydantic
validation. The accumulator is the `found_docs` dict. -/
def mgetFound (tk : String) : List BDoc → List (String × Document) →
    Except MErr (List (String × Document))
  | [], acc => .ok acc
  | r :: rest, acc =>
    match popField r tk with
    | none => .error .keyError
    | some (.str t, r1) =>
      match popField r1 "_id" with
      | some (.str k, r2) =>
        mgetFound tk rest
          (if acc.any (fun p => p.1 == k) then
            acc.map (fun p => if p.1 == k then (k, ⟨t, make_serializable r2⟩) else p)
          else acc ++ [(k, ⟨t, make_serializable r2⟩)])
      | _ => .error .keyError
    | some _ => .error .validationErr

/-- `MongoDBDocStore.mget`: one query for all matching records, a local
re-association dict, then one lookup per input key (misses become `none`). -/
def mget (tk : String) (st : List BDoc) (keys : List String) :
    Except MErr (List (Option Document)) := do
  let matched := st.filter (matchPred keys)
  let found ← mgetFound tk matched []
  return keys.map (fun k => ((found.find? (fun p => p.1 == k)).map (·.2)))

/-- `MongoDBDocStore.mdelete`: `delete_many` removes every record whose
`_id` is in the given keys; absent keys are simply not matched. -/
def mdelete (st : List BDoc) (keys : List String) : List BDoc :=
  st.filter (fun r => !(matchPred keys r))

/-- Characters that are special in a regular expression (PCRE). -/
def regexSpecials : List Char :=
  ['.', '\\', '*', '+', '?', '[', ']', '(', ')', '\x7b', '\x7d', '^', '$', '|']

/-- Anchored regular-expression matching for the fragment in which every
pattern character is either the wildcard dot or a literal — the fragment the
pattern `"^" + prefix` of `yield_keys` lives in when the prefix has no other
regex metacharacters. This is the documented `$regex` semantics (match at the
start of the string) restricted to that fragment. -/
def regexFragMatch : List Char → List Char → Bool
  | [], _ => true
  | _ :: _, [] => false
  | pc :: ps, c :: cs => (pc == '.' || pc == c) && regexFragMatch ps cs

/-- `MongoDBDocStore.yield_keys`: with a truthy prefix the query is
`\x7b"_id": \x7b"$regex": "^" + prefix\x7d\x7d` (on strings only, as `$regex`
matches only string values); with `None` — or with the falsy empty string,
since the code tests `if prefix` — the query is empty and every record is
returned. Each returned record contributes its `_id`. -/
def yieldQuery (pre : Option (List Char)) (r : BDoc) : Bool :=
  match pre with
  | some p =>
    if p.isEmpty then true
    else
      match getField r "_id" with
      | some (.str s) => regexFragMatch p s.data
      | _ => false
  | none => true

/-- The record stream of `yield_keys`: the records matching the query, each
contributing its `_id`. -/
def yield_keys (st : List BDoc) (pre : Option (List Char)) : List BVal :=
  (st.filter (yieldQuery pre)).filterMap (fun r => getField r "_id")

/-- Python `str.split(sep)` for a one-character separator (the namespace is
modelled as its character list). -/
def splitOnChar (c : Char) : List Char → List (List Char)
  | [] => [[]]
  | x :: xs =>
    if x == c then [] :: splitOnChar c xs
    else
      match splitOnChar c xs with
      | h :: t => (x :: h) :: t
      | [] => [[x]]

/-- `MongoDBDocStore.from_connection_string`:
`db_name, collection_name = namespace.split(".")` — the unpacking raises
`ValueError` unless the split yields exactly two parts. -/
def from_connection_string (ns : List Char) : Except MErr (List Char × List Char) :=
  match splitOnChar '.' ns with
  | [db, coll] => .ok (db, coll)
  | _ => .error .valueError

/-! ## The parent-document retriever (`retrievers/parent_document.py`)

`_get_relevant_documents` builds one aggregation pipeline:
vector search → `$set` score → `$project` out `embedding` → `$lookup` of the
parent (with a sub-pipeline discarding records that carry the foreign-key
field at path `metadata.<id_key>`) → `$unwind` → `$group` by parent `_id`
with `$first` → `$replaceRoot`, and then formats each resulting record into a
`Document`.  The stages after the vector search are embedded one by one; the
`$lookup` result is carried as an explicit (candidate, joined record) pair
instead of a nested `parent_context` field, which is the same data. -/

/-- Dot product of two integer vectors (the similarity score of the modelled
vector index). -/
def dotProd (a b : List Int) : Int :=
  (List.zipWith (· * ·) a b).sum

/-- Stable descending insertion by score. -/
def insertDesc (x : BDoc × Int) : List (BDoc × Int) → List (BDoc × Int)
  | [] => [x]
  | y :: ys => if x.2 < y.2 then y :: insertDesc x ys else x :: y :: ys

/-- Stable descending sort by score. -/
def sortDesc : List (BDoc × Int) → List (BDoc × Int)
  | [] => []
  | x :: xs => insertDesc x (sortDesc xs)

/-- Modelled from the spec: `vector_search_stage` (`langchain_mongodb.pipelines`,
not under src/) and the `$vectorSearch` stage it configures.  Per the spec,
the stage performs "vector similarity search restricted to child records,
producing ranked candidates with a similarity score": only records carrying
the embedding field are indexed, each is scored against the query vector
(dot-product similarity on integer vectors in this model), and the top
`limit` are returned ranked by descending score. -/
def vectorSearch (ek : String) (limit : Nat) (q : List Int) (coll : List BDoc) :
    List (BDoc × Int) :=
  (sortDesc (coll.filterMap (fun r =>
    match getField r ek with
    | some (.vec v) => some (r, dotProd v q)
    | _ => none))).take limit

/-- Stage `\x7b"$set": \x7b"score": \x7b"$meta": "vectorSearchScore"\x7d\x7d\x7d`:
attach each candidate's similarity score as a `score` field. -/
def setScoreStage (cands : List (BDoc × Int)) : List BDoc :=
  cands.map (fun p => dictInsert p.1 "score" (.int p.2))

/-- Stage `\x7b"$project": \x7b"embedding": 0\x7d\x7d`: drop the literal
`embedding` field from every candidate. -/
def projectStage (docs : List BDoc) : List BDoc :=
  docs.map (fun d => eraseField d "embedding")

/-- Does the record have a field at path `k1.k2` (a subdocument at `k1`
containing key `k2`)?  This is `$exists` on a dotted path. -/
def hasPath (r : BDoc) (k1 k2 : String) : Bool :=
  match getField r k1 with
  | some (.sub d) => d.any (fun q => q.1 == k2)
  | _ => false

/-- The records joined to one candidate by the `$lookup` stage: records of
the same collection whose `_id` equals the candidate's `id_key` field
(`localField: id_key, foreignField: "_id"`), filtered by the sub-pipeline
`$match` that discards records carrying the path `metadata.<id_key>`.
A candidate with no `id_key` field joins nothing (no record has a missing
`_id`). -/
def childJoins (idk : String) (coll : List BDoc) (c : BDoc) : List BDoc :=
  coll.filter (fun r =>
    (match getField c idk with
     | some v => getField r "_id" == some v
     | none => false)
    && !(hasPath r "metadata" idk))

/-- The `$lookup` stage: each candidate is paired with its joined records
(the `parent_context` array). -/
def lookupStage (idk : String) (coll : List BDoc) (docs : List BDoc) :
    List (BDoc × List BDoc) :=
  docs.map (fun c => (c, childJoins idk coll c))

/-- The `$unwind` stage on `parent_context`: one output per array element,
in order; candidates with an empty array are dropped. -/
def unwindStage (xs : List (BDoc × List BDoc)) : List (BDoc × BDoc) :=
  xs.flatMap (fun p => p.2.map (fun r => (p.1, r)))

/-- First-occurrence deduplication by key with an explicit seen set: the
semantics of `$group` with a `$first` accumulator, processing the input in
pipeline order and emitting each group at its first appearance. -/
def dedupByKey {α κ : Type} [BEq κ] (key : α → κ) (seen : List κ) :
    List α → List α
  | [] => []
  | x :: xs =>
    if seen.contains (key x) then dedupByKey key seen xs
    else x :: dedupByKey key (key x :: seen) xs

/-- The `$group` stage
`\x7b"_id": "$parent_context._id", "uniqueDocument": \x7b"$first": "$parent_context"\x7d\x7d`:
one output per distinct joined-record `_id`, holding the group key and the
first joined record seen for it. -/
def groupStage (xs : List (BDoc × BDoc)) : List (Option BVal × BDoc) :=
  (dedupByKey (fun p => getField p.2 "_id") [] xs).map
    (fun p => (getField p.2 "_id", p.2))

/-- The `$replaceRoot` stage on `uniqueDocument`: keep only the grouped
record. -/
def replaceRootStage (xs : List (Option BVal × BDoc)) : List BDoc :=
  xs.map (·.2)

/-- The configuration `_get_relevant_documents` reads: the shared collection,
the text key, the embedding key, the parent-pointer key (`id_key`, default
`doc_id`), and the search `limit`. -/
structure Retriever where
  collection : List BDoc
  text_key : String
  embedding_key : String
  id_key : String
  limit : Nat

/-- The ranked candidate stream entering the `$lookup` stage. -/
def rankedCandidates (rv : Retriever) (q : List Int) : List BDoc :=
  projectStage (setScoreStage
    (vectorSearch rv.embedding_key rv.limit q rv.collection))

/-- The records produced by the aggregation pipeline of
`_get_relevant_documents`, before formatting into `Document`s. -/
def pipelineRecords (rv : Retriever) (q : List Int) : List BDoc :=
  replaceRootStage (groupStage (unwindStage
    (lookupStage rv.id_key rv.collection (rankedCandidates rv q))))

/-- The result-formatting loop of `_get_relevant_documents`:
`text = res.pop(text_key)`; `make_serializable(res)`;
`Document(page_content=text, metadata=res)`. -/
def formatDoc (tk : String) (r : BDoc) : Except MErr Document :=
  match popField r tk with
  | some (.str t, rest) => .ok ⟨t, make_serializable rest⟩
  | some _ => .error .validationErr
  | none => .error .keyError

/-- `MongoDBAtlasParentDocumentRetriever._get_relevant_documents`. -/
def getRelevantDocuments (rv : Retriever) (q : List Int) :
    Except MErr (List Document) :=
  (pipelineRecords rv q).mapM (formatDoc rv.text_key)

/-- Spec-side deduplication, written from the spec's words: keep a candidate
iff no earlier element of the stream has the same key, preserving the stream
order. -/
def keepFirstByKey (key : BDoc → Option BVal) (l : List BDoc) : List BDoc :=
  l.foldl (fun acc r =>
    if acc.any (fun s => key s == key r) then acc else acc ++ [r]) []

/-- The stream of joined parents in candidate rank order (each candidate
contributes its joined records, candidates in vector-search rank order). -/
def parentStream (rv : Retriever) (q : List Int) : List BDoc :=
  (rankedCandidates rv q).flatMap (childJoins rv.id_key rv.collection)

/-- Extraction of the stored `Document` from a record, exactly as the `mget`
loop performs it: the text field's string value, and the record minus the
text field and minus `_id` as metadata. -/
def docOf (tk : String) (r : BDoc) : Document :=
  ⟨(match getField r tk with | some (.str t) => t | _ => ""),
   make_serializable (eraseField (eraseField r tk) "_id")⟩

/-- A parent record: no foreign-key field, keyed `p1`. -/
def p1rec : BDoc :=
  [("_id", .str "p1"), ("page_content", .str "parent text"), ("title", .str "T")]

/-- A child record pointing at `p1`, with an embedding. -/
def c1rec : BDoc :=
  [("_id", .str "c1"), ("page_content", .str "chunk one"),
   ("embedding", .vec [1, 0]), ("doc_id", .str "p1")]

/-- A second child record pointing at `p1`, with a different embedding. -/
def c2rec : BDoc :=
  [("_id", .str "c2"), ("page_content", .str "chunk two"),
   ("embedding", .vec [0, 1]), ("doc_id", .str "p1")]

/-- The retriever of the end-to-end scenario: one collection holding the
parent and both children. -/
def rvEx : Retriever :=
  ⟨[p1rec, c1rec, c2rec], "page_content", "embedding", "doc_id", 4⟩

/-- A query vector giving the two children different similarity scores. -/
def qEx : List Int := [2, 1]

instance {ε α : Type} [DecidableEq ε] [DecidableEq α] : DecidableEq (Except ε α) :=
  fun x y =>
    match x, y with
    | .error a, .error b =>
      match decEq a b with
      | isTrue h => isTrue (by rw [h])
      | isFalse h => isFalse (fun hh => h (by cases hh; rfl))
    | .ok a, .ok b =>
      match decEq a b with
      | isTrue h => isTrue (by rw [h])
      | isFalse h => isFalse (fun hh => h (by cases hh; rfl))
    | .error _, .ok _ => isFalse (fun hh => by cases hh)
    | .ok _, .error _ => isFalse (fun hh => by cases hh)

/-- The string identifier of a record (the `key` popped by the `mget` loop;
meaningful on records whose `_id` is a string). -/
def idStr (r : BDoc) : String :=
  match getField r "_id" with
  | some (.str k) => k
  | _ => ""

/-! ## Theorems -/

theorem splitOnChar_not_mem (c : Char) (ns : List Char) (h : c ∉ ns) :
    splitOnChar c ns = [ns] := by
  induction ns with
  | nil => rfl
  | cons x xs ih =>
    have hx : (x == c) = false := by
      simp only [beq_eq_false_iff_ne]
      intro hh; exact h (hh ▸ List.mem_cons_self x xs)
    have hxs : c ∉ xs := fun hh => h (List.mem_cons_of_mem x hh)
    simp only [splitOnChar, hx, ih hxs]
    rfl

theorem splitOnChar_append (c : Char) (db coll : List Char) (hdb : c ∉ db) :
    splitOnChar c (db ++ c :: coll) = db :: splitOnChar c coll := by
  induction db with
  | nil => simp [splitOnChar]
  | cons x xs ih =>
    have hx : (x == c) = false := by
      simp only [beq_eq_false_iff_ne]
      intro hh; exact hdb (hh ▸ List.mem_cons_self x xs)
    have hxs : c ∉ xs := fun hh => hdb (List.mem_cons_of_mem x hh)
    simp only [List.cons_append, splitOnChar, hx, List.append_eq, ih hxs,
      Bool.false_eq_true, if_false]

/-- C9: `from_connection_string` fails at construction time when the
namespace lacks the `.` separator, and succeeds on a well-formed
`database.collection` namespace, using the two parts as database and
collection names. -/
theorem C9_from_connection_string (ns db coll : List Char)
    (hns : '.' ∉ ns) (hdb : '.' ∉ db) (hcoll : '.' ∉ coll) :
    from_connection_string ns = .error .valueError
    ∧ from_connection_string (db ++ '.' :: coll) = .ok (db, coll) := by
  constructor
  · rw [from_connection_string, splitOnChar_not_mem _ _ hns]
  · rw [from_connection_string, splitOnChar_append _ _ _ hdb,
        splitOnChar_not_mem _ _ hcoll]

/-- Witness for C9 at the namespace `db.coll` and the malformed `dbcoll`. -/
theorem C9_witness :
    from_connection_string ['d', 'b', 'c'] = .error .valueError
    ∧ from_connection_string (['d', 'b'] ++ '.' :: ['c']) = .ok (['d', 'b'], ['c']) :=
  C9_from_connection_string ['d', 'b', 'c'] ['d', 'b'] ['c']
    (by decide) (by decide) (by decide)

/-- C10: `mset` on the empty sequence of pairs raises (the unpacking of
`zip(*key_value_pairs)` fails with `ValueError`), is not a no-op success, and
issues no insert call, leaving the collection untouched. -/
theorem C10_mset_empty (tk : String) (st : List BDoc) (bsz : Nat) :
    mset tk st [] bsz = ⟨st, 0, some .valueError⟩ := rfl

/-- C7: `mdelete` removes every record whose identifier is in the key set,
raises nothing for absent keys (it is total), and a subsequent `mget` on the
same keys returns `none` for every key. -/
theorem C7_mdelete (tk : String) (st : List BDoc) (keys : List String) :
    (∀ r ∈ mdelete st keys, matchPred keys r = false)
    ∧ mget tk (mdelete st keys) keys = .ok (keys.map (fun _ => none)) := by
  constructor
  · intro r hr
    have := (List.mem_filter.mp hr).2
    simpa using this
  · have h : (mdelete st keys).filter (matchPred keys) = [] := by
      simp only [mdelete, List.filter_filter]
      apply List.filter_eq_nil_iff.mpr
      intro a _
      cases hm : matchPred keys a <;> simp [hm]
    simp only [mget, h, mgetFound]
    simp [List.find?]

/-- Witness for C7 on a two-record store, deleting one present and one
absent key. -/
theorem C7_witness :
    (∀ r ∈ mdelete [[("_id", BVal.str "a"), ("page_content", BVal.str "x")]] ["a", "zz"],
      matchPred ["a", "zz"] r = false)
    ∧ mget "page_content" (mdelete [[("_id", BVal.str "a"), ("page_content", BVal.str "x")]] ["a", "zz"])
        ["a", "zz"] = .ok [none, none] :=
  C7_mdelete "page_content" [[("_id", BVal.str "a"), ("page_content", BVal.str "x")]] ["a", "zz"]

theorem regexFragMatch_literal (pat : List Char) (h : ∀ c ∈ pat, c ∉ regexSpecials) :
    ∀ s : List Char, regexFragMatch pat s = pat.isPrefixOf s := by
  induction pat with
  | nil => intro s; cases s <;> rfl
  | cons pc ps ih =>
    intro s
    cases s with
    | nil => rfl
    | cons c cs =>
      have hdot : (pc == '.') = false := by
        simp only [beq_eq_false_iff_ne]
        intro hh
        exact h pc (List.mem_cons_self pc ps) (by rw [hh]; simp [regexSpecials])
      have hps : ∀ c ∈ ps, c ∉ regexSpecials :=
        fun c hc => h c (List.mem_cons_of_mem pc hc)
      simp only [regexFragMatch, List.isPrefixOf, hdot, Bool.false_or, ih hps]

theorem filter_filterMap_ids (keep : BDoc → Bool) (pred : BVal → Bool) :
    ∀ st : List BDoc,
    (∀ r ∈ st, ∃ s, getField r "_id" = some (.str s) ∧ keep r = pred (.str s)) →
    (st.filter keep).filterMap (fun r => getField r "_id")
      = (st.filterMap (fun r => getField r "_id")).filter pred := by
  intro st
  induction st with
  | nil => intro _; rfl
  | cons r rs ih =>
    intro h
    obtain ⟨s, hs, hk⟩ := h r (List.mem_cons_self r rs)
    have ihh := ih (fun r hr => h r (List.mem_cons_of_mem _ hr))
    simp only [List.filter_cons, List.filterMap_cons, hs]
    cases hkr : keep r with
    | false =>
      rw [hkr] at hk
      simp [← hk, ihh]
    | true =>
      rw [hkr] at hk
      simp [← hk, ihh, hs]

/-- Corrected C8: for a prefix made only of characters that are not regex
metacharacters, `yield_keys` with that prefix yields exactly the stored
identifiers beginning with it (in query order; the spec promises no order),
and with no prefix it yields all stored identifiers.  (The empty prefix is
falsy in Python, so it takes the unfiltered branch; every identifier begins
with it anyway.) -/
theorem C8_yield_keys (st : List BDoc) (p : List Char)
    (hp : ∀ c ∈ p, c ∉ regexSpecials)
    (hids : ∀ r ∈ st, ∃ s, getField r "_id" = some (.str s)) :
    yield_keys st (some p) =
      (st.filterMap (fun r => getField r "_id")).filter
        (fun v => match v with | .str s => p.isPrefixOf s.data | _ => false)
    ∧ yield_keys st none = st.filterMap (fun r => getField r "_id") := by
  constructor
  · rw [yield_keys]
    apply filter_filterMap_ids
    intro r hr
    obtain ⟨s, hs⟩ := hids r hr
    refine ⟨s, hs, ?_⟩
    by_cases hpe : p = []
    · subst hpe
      simp [yieldQuery, List.isPrefixOf]
    · have hne : p.isEmpty = false := by
        cases p with
        | nil => exact absurd rfl hpe
        | cons a b => rfl
      simp only [yieldQuery, hne, Bool.false_eq_true, if_false, hs]
      exact regexFragMatch_literal p hp s.data
  · rw [yield_keys]
    have : ∀ r : BDoc, yieldQuery none r = true := fun _ => rfl
    rw [List.filter_eq_self.mpr (fun a _ => this a)]

/-- Counterexample to C8 as stated: the prefix is spliced into a regular
expression, so a prefix containing the metacharacter `.` matches identifiers
that do not begin with it: with one stored identifier `axb`, the prefix
`a.b` yields `axb`, which does not begin with `a.b`. -/
theorem C8_counterexample :
    yield_keys [[("_id", BVal.str "axb")]] (some ['a', '.', 'b']) = [.str "axb"]
    ∧ ['a', '.', 'b'].isPrefixOf "axb".data = false := by
  constructor
  · rfl
  · rfl

/-- Witness for C8: a metacharacter-free prefix `a` over a two-record store. -/
theorem C8_witness :
    yield_keys [[("_id", BVal.str "ab")], [("_id", BVal.str "zb")]] (some ['a']) =
      ([[("_id", BVal.str "ab")], [("_id", BVal.str "zb")]].filterMap
        (fun r => getField r "_id")).filter
        (fun v => match v with | .str s => ['a'].isPrefixOf s.data | _ => false)
    ∧ yield_keys [[("_id", BVal.str "ab")], [("_id", BVal.str "zb")]] none =
      [[("_id", BVal.str "ab")], [("_id", BVal.str "zb")]].filterMap
        (fun r => getField r "_id") :=
  C8_yield_keys [[("_id", BVal.str "ab")], [("_id", BVal.str "zb")]] ['a']
    (by decide)
    (by intro r hr
        simp only [List.mem_cons, List.not_mem_nil, or_false] at hr
        rcases hr with h | h <;> exact ⟨_, by rw [h]; rfl⟩)

theorem ceilCount_succ (n bsz : Nat) (hbsz : 0 < bsz) (hn : 0 < n) :
    (n + bsz - 1) / bsz = (n - bsz + bsz - 1) / bsz + 1 := by
  by_cases hle : bsz ≤ n
  · have h1 : n + bsz - 1 = (n - 1) + bsz := by omega
    have h2 : n - bsz + bsz - 1 = n - 1 := by omega
    rw [h1, h2, Nat.add_div_right _ hbsz]
  · have h0 : n - bsz = 0 := by omega
    have h1 : n + bsz - 1 = (n - 1) + bsz := by omega
    have h2 : 0 + bsz - 1 = bsz - 1 := by omega
    rw [h0, h1, Nat.add_div_right _ hbsz, h2, Nat.div_eq_of_lt (by omega),
        Nat.div_eq_of_lt (by omega)]

theorem msetBatches_nil (bsz : Nat) (hbsz : 0 < bsz) : msetBatches bsz [] = [] := by
  have h : (bsz - 1) / bsz = 0 := Nat.div_eq_of_lt (by omega)
  simp [msetBatches, pyRange, h]

theorem batch_slice_shift (pairs : List (String × Document)) (bsz a : Nat)
    (hba : bsz ≤ a) :
    (pairs.take (a + bsz)).drop (a + bsz - bsz)
      = ((pairs.drop bsz).take a).drop (a - bsz) := by
  have h1 : a + bsz - bsz = a := by omega
  rw [h1]
  have h2 : (pairs.drop bsz).take a = (pairs.take (a + bsz)).drop bsz := by
    rw [List.drop_take]
    congr 1
    omega
  rw [h2, List.drop_drop]
  congr 1
  omega

theorem msetBatches_cons (bsz : Nat) (pairs : List (String × Document))
    (hbsz : 0 < bsz) (hne : pairs ≠ []) :
    msetBatches bsz pairs = pairs.take bsz :: msetBatches bsz (pairs.drop bsz) := by
  have hn : 0 < pairs.length := List.length_pos.mpr hne
  have hcount : (pairs.length + bsz - bsz + bsz - 1) / bsz
      = ((pairs.drop bsz).length + bsz - bsz + bsz - 1) / bsz + 1 := by
    rw [Nat.add_sub_cancel, Nat.add_sub_cancel, List.length_drop]
    exact ceilCount_succ pairs.length bsz hbsz hn
  simp only [msetBatches, pyRange, List.map_map]
  rw [hcount, List.range_succ_eq_map, List.map_cons, List.map_map]
  refine congrArg₂ List.cons ?_ ?_
  · simp
  · refine List.map_congr_left ?_
    intro i _
    simp only [Function.comp]
    have e1 : bsz + Nat.succ i * bsz = bsz + i * bsz + bsz := by
      rw [Nat.succ_mul]; omega
    rw [e1]
    exact batch_slice_shift pairs bsz (bsz + i * bsz) (Nat.le_add_right bsz _)

theorem msetBatches_flatten (bsz : Nat) (hbsz : 0 < bsz)
    (pairs : List (String × Document)) :
    (msetBatches bsz pairs).flatten = pairs := by
  by_cases hne : pairs = []
  · subst hne; rw [msetBatches_nil bsz hbsz]; rfl
  · rw [msetBatches_cons bsz pairs hbsz hne, List.flatten_cons,
      msetBatches_flatten bsz hbsz (pairs.drop bsz), List.take_append_drop]
termination_by pairs.length
decreasing_by
  simp only [List.length_drop]
  have := List.length_pos.mpr hne
  omega

theorem msetBatches_length_le (bsz : Nat) (pairs : List (String × Document))
    (b : List (String × Document)) (hb : b ∈ msetBatches bsz pairs) :
    b.length ≤ bsz := by
  simp only [msetBatches, pyRange, List.map_map, List.mem_map] at hb
  obtain ⟨i, _, rfl⟩ := hb
  simp only [Function.comp, List.length_drop, List.length_take]
  omega

theorem msetBatches_map_length (bsz : Nat) (pairs : List (String × Document)) :
    (msetBatches bsz pairs).map List.length = chunkLens pairs.length bsz := by
  simp only [msetBatches, chunkLens, pyRange, List.map_map]
  refine List.map_congr_left ?_
  intro i _
  simp only [Function.comp, List.length_drop, List.length_take]

theorem msetRun_calls_of_ok (tk : String)
    (bl : List (List (String × Document))) :
    ∀ st : List BDoc, (msetRun tk st bl).err = none →
    (msetRun tk st bl).calls = bl.length := by
  induction bl with
  | nil => intro st _; rfl
  | cons b bs ih =>
    intro st h
    simp only [msetRun] at h ⊢
    rcases hins : insert_many tk st b with ⟨st', eo⟩
    rw [hins] at h
    cases eo with
    | none =>
      have h' : (msetRun tk st' bs).err = none := h
      show (msetRun tk st' bs).calls + 1 = bs.length + 1
      rw [ih st' h']
    | some e => exact Option.noConfusion h

theorem mset_run_eq (tk : String) (st : List BDoc) (pairs : List (String × Document))
    (bsz : Nat) (hne : pairs ≠ []) (hbsz : 0 < bsz) :
    mset tk st pairs bsz = msetRun tk st (msetBatches bsz pairs) := by
  have h1 : pairs.isEmpty = false := by
    cases pairs with
    | nil => exact absurd rfl hne
    | cons a b => rfl
  have h2 : (bsz == 0) = false := by
    simp only [beq_eq_false_iff_ne]
    omega
  simp [mset, h1, h2]

/-- C4: `mset` chunks its input into consecutive batches of at most
`batch_size` pairs, every input pair landing in exactly one batch (the
concatenation of the batches is the input), one insert call is issued per
batch on a successful run, and on 250,000 pairs with batch size 100,000 the
batch lengths are exactly 100,000, 100,000 and 50,000 — three insert calls,
the last covering the remaining 50,000 records. -/
theorem C4_mset_batching (tk : String) (st : List BDoc)
    (pairs : List (String × Document)) (bsz : Nat) (hbsz : 0 < bsz) :
    (msetBatches bsz pairs).flatten = pairs
    ∧ (∀ b ∈ msetBatches bsz pairs, b.length ≤ bsz)
    ∧ (msetBatches bsz pairs).map List.length = chunkLens pairs.length bsz
    ∧ ((mset tk st pairs bsz).err = none →
        (mset tk st pairs bsz).calls = (msetBatches bsz pairs).length)
    ∧ (pairs.length = 250000 →
        (msetBatches 100000 pairs).map List.length = [100000, 100000, 50000]) := by
  refine ⟨msetBatches_flatten bsz hbsz pairs,
    fun b hb => msetBatches_length_le bsz pairs b hb,
    msetBatches_map_length bsz pairs, ?_, ?_⟩
  · intro hok
    by_cases hne : pairs = []
    · subst hne
      simp [mset] at hok
    · rw [mset_run_eq tk st pairs bsz hne hbsz] at hok ⊢
      exact msetRun_calls_of_ok tk (msetBatches bsz pairs) st hok
  · intro hlen
    rw [msetBatches_map_length 100000 pairs, hlen]
    decide

/-- Witness for C4 at batch size 2 over five pairs: batches of lengths
2, 2, 1, three insert calls, flattening back to the input. -/
theorem C4_witness :
    (msetBatches 2 [("a", ⟨"x", []⟩), ("b", ⟨"x", []⟩), ("c", ⟨"x", []⟩),
        ("d", ⟨"x", []⟩), ("e", ⟨"x", []⟩)]).flatten
      = [("a", ⟨"x", []⟩), ("b", ⟨"x", []⟩), ("c", ⟨"x", []⟩),
        ("d", ⟨"x", []⟩), ("e", ⟨"x", []⟩)]
    ∧ (mset "page_content" []
        [("a", ⟨"x", []⟩), ("b", ⟨"x", []⟩), ("c", ⟨"x", []⟩),
         ("d", ⟨"x", []⟩), ("e", ⟨"x", []⟩)] 2).calls
        = (msetBatches 2 [("a", ⟨"x", []⟩), ("b", ⟨"x", []⟩), ("c", ⟨"x", []⟩),
            ("d", ⟨"x", []⟩), ("e", ⟨"x", []⟩)]).length :=
  ⟨(C4_mset_batching "page_content" []
      [("a", ⟨"x", []⟩), ("b", ⟨"x", []⟩), ("c", ⟨"x", []⟩),
       ("d", ⟨"x", []⟩), ("e", ⟨"x", []⟩)] 2 (by decide)).1,
   (C4_mset_batching "page_content" []
      [("a", ⟨"x", []⟩), ("b", ⟨"x", []⟩), ("c", ⟨"x", []⟩),
       ("d", ⟨"x", []⟩), ("e", ⟨"x", []⟩)] 2 (by decide)).2.2.2.1 (by decide)⟩

theorem insertManyRun_extends (rs : List BDoc) :
    ∀ st : List BDoc, ∃ tail, (insertManyRun st rs).1 = st ++ tail := by
  induction rs with
  | nil => intro st; exact ⟨[], by simp [insertManyRun]⟩
  | cons r rest ih =>
    intro st
    by_cases hc : st.any (fun x => getField x "_id" == getField r "_id")
    · refine ⟨[], ?_⟩
      simp [insertManyRun, insertRecord, hc]
    · obtain ⟨t, ht⟩ := ih (st ++ [r])
      refine ⟨[r] ++ t, ?_⟩
      simp only [insertManyRun, insertRecord, hc, Bool.false_eq_true, if_false]
      rw [ht, List.append_assoc]

theorem msetRun_fail (tk : String) (done : List (List (String × Document)))
    (b : List (String × Document)) (rest : List (List (String × Document)))
    (e : MErr) :
    ∀ st : List BDoc, (msetRun tk st done).err = none →
    (insert_many tk (msetRun tk st done).state b).2 = some e →
    msetRun tk st (done ++ b :: rest) =
      ⟨(insert_many tk (msetRun tk st done).state b).1, done.length + 1, some e⟩ := by
  induction done with
  | nil =>
    intro st _ hfail
    have hfail' : (insert_many tk st b).2 = some e := hfail
    simp only [List.nil_append, msetRun]
    rcases hins : insert_many tk st b with ⟨st', eo⟩
    rw [hins] at hfail'
    cases eo with
    | none => exact Option.noConfusion hfail'
    | some e' =>
      have he : e' = e := Option.some.inj hfail'
      subst he
      rfl
  | cons d ds ih =>
    intro st hok hfail
    simp only [msetRun] at hok hfail
    simp only [List.cons_append, msetRun]
    rcases hins : insert_many tk st d with ⟨st', eo⟩
    rw [hins] at hok hfail
    cases eo with
    | some e' => exact Option.noConfusion hok
    | none =>
      have hok' : (msetRun tk st' ds).err = none := hok
      have hfail' : (insert_many tk (msetRun tk st' ds).state b).2 = some e := hfail
      have hrec := ih st' hok' hfail'
      show (⟨(msetRun tk st' (ds ++ b :: rest)).state,
             (msetRun tk st' (ds ++ b :: rest)).calls + 1,
             (msetRun tk st' (ds ++ b :: rest)).err⟩ : MsetOut) = _
      rw [hrec]
      rfl

/-- C5: if the insert call for some batch fails during `mset`, the error
propagates uncaught and unretried (the run ends with that error after
exactly one call for the failing batch), no later batch's insert call is
issued (the call count is the number of successful batches plus one), and
records inserted by earlier batches — and by the failing batch before the
conflict — are not rolled back (the final state extends the pre-failure
state).  The last conjunct ties `mset` to this batch loop. -/
theorem C5_mset_error_propagates (tk : String) (st : List BDoc)
    (done : List (List (String × Document))) (b : List (String × Document))
    (rest : List (List (String × Document))) (e : MErr)
    (hok : (msetRun tk st done).err = none)
    (hfail : (insert_many tk (msetRun tk st done).state b).2 = some e) :
    msetRun tk st (done ++ b :: rest) =
      ⟨(insert_many tk (msetRun tk st done).state b).1, done.length + 1, some e⟩
    ∧ (∃ tail, (insert_many tk (msetRun tk st done).state b).1 =
        (msetRun tk st done).state ++ tail)
    ∧ (∀ (pairs : List (String × Document)) (bsz : Nat), pairs ≠ [] → 0 < bsz →
        mset tk st pairs bsz = msetRun tk st (msetBatches bsz pairs)) :=
  ⟨msetRun_fail tk done b rest e st hok hfail,
   insertManyRun_extends _ _,
   fun pairs bsz hne hb => mset_run_eq tk st pairs bsz hne hb⟩

/-- Witness for C5: a store already holding key `k`; the first batch (key
`a`) succeeds, the second batch (key `k`) hits a duplicate key, the third
batch is never issued. -/
theorem C5_witness :
    (msetRun "page_content" [[("_id", BVal.str "k"), ("page_content", BVal.str "v")]]
      ([[("a", ⟨"x", []⟩)]] ++ [("k", ⟨"y", []⟩)] :: [[("z", ⟨"w", []⟩)]])).err
        = some .dupKey
    ∧ (msetRun "page_content" [[("_id", BVal.str "k"), ("page_content", BVal.str "v")]]
        ([[("a", ⟨"x", []⟩)]] ++ [("k", ⟨"y", []⟩)] :: [[("z", ⟨"w", []⟩)]])).calls = 2 := by
  have h := C5_mset_error_propagates "page_content"
    [[("_id", BVal.str "k"), ("page_content", BVal.str "v")]]
    [[("a", ⟨"x", []⟩)]] [("k", ⟨"y", []⟩)] [[("z", ⟨"w", []⟩)]] .dupKey
    (by decide) (by decide)
  rw [h.1]
  exact ⟨rfl, rfl⟩

theorem getField_cons (p : String × BVal) (ps : BDoc) (k : String) :
    getField (p :: ps) k = if p.1 == k then some p.2 else getField ps k := by
  simp only [getField, List.find?_cons]
  cases hc : p.1 == k <;> simp [hc, getField]

theorem getField_erase_ne (k k' : String) (hne : k' ≠ k) :
    ∀ r : BDoc, getField (eraseField r k) k' = getField r k' := by
  intro r
  induction r with
  | nil => rfl
  | cons p ps ih =>
    simp only [eraseField]
    by_cases hp : p.1 = k
    · have h1 : (p.1 == k) = true := by simp [hp]
      have h2 : (p.1 == k') = false := by
        simp only [beq_eq_false_iff_ne]
        rw [hp]
        exact fun hh => hne hh.symm
      rw [h1, if_pos rfl, getField_cons, h2, if_neg (by simp)]
    · have h1 : (p.1 == k) = false := by simp [hp]
      rw [h1]
      simp only [Bool.false_eq_true, if_false, getField_cons]
      cases hc : p.1 == k' <;> simp [hc, ih]

theorem popField_some (r : BDoc) (k : String) (v : BVal)
    (h : getField r k = some v) :
    popField r k = some (v, eraseField r k) := by
  rw [popField, h]

theorem mgetFound_spec (tk : String) (htk : tk ≠ "_id") :
    ∀ matched : List BDoc,
    (∀ r ∈ matched,
      (∃ t, getField r tk = some (.str t)) ∧ ∃ k, getField r "_id" = some (.str k)) →
    matched.Pairwise (fun a b => getField a "_id" ≠ getField b "_id") →
    ∀ acc : List (String × Document),
    (∀ r ∈ matched, ∀ p ∈ acc, p.1 ≠ idStr r) →
    mgetFound tk matched acc
      = .ok (acc ++ matched.map (fun r => (idStr r, docOf tk r))) := by
  intro matched
  induction matched with
  | nil => intro _ _ acc _; simp [mgetFound]
  | cons r rs ih =>
    intro h hpw acc hacc
    obtain ⟨⟨t, ht⟩, ⟨k, hk⟩⟩ := h r (List.mem_cons_self r rs)
    have hid1 : getField (eraseField r tk) "_id" = some (.str k) := by
      rw [getField_erase_ne tk "_id" (fun hh => htk hh.symm) r, hk]
    have hidr : idStr r = k := by rw [idStr, hk]
    have hdoc : docOf tk r = ⟨t, make_serializable (eraseField (eraseField r tk) "_id")⟩ := by
      rw [docOf, ht]
    have hanyk : acc.any (fun p => p.1 == k) = false := by
      rw [List.any_eq_false]
      intro p hp
      simp only [beq_eq_false_iff_ne, ne_eq, beq_iff_eq]
      intro hh
      exact hacc r (List.mem_cons_self r rs) p hp (hh.trans hidr.symm)
    simp only [mgetFound, popField_some r tk (.str t) ht,
      popField_some (eraseField r tk) "_id" (.str k) hid1, hanyk,
      Bool.false_eq_true, if_false]
    have hrs : ∀ r' ∈ rs,
        (∃ t, getField r' tk = some (.str t)) ∧ ∃ k, getField r' "_id" = some (.str k) :=
      fun r' hr' => h r' (List.mem_cons_of_mem r hr')
    have hpw' := (List.pairwise_cons.mp hpw).2
    have hacc' : ∀ r' ∈ rs, ∀ p ∈ acc ++ [(k, (⟨t, make_serializable (eraseField (eraseField r tk) "_id")⟩ : Document))],
        p.1 ≠ idStr r' := by
      intro r' hr' p hp
      rcases List.mem_append.mp hp with hpa | hpk
      · exact hacc r' (List.mem_cons_of_mem r hr') p hpa
      · have hp1 : p.1 = k := by
          rcases List.mem_singleton.mp hpk with rfl
          rfl
        rw [hp1]
        obtain ⟨k', hk'⟩ := (hrs r' hr').2
        have hne := (List.pairwise_cons.mp hpw).1 r' hr'
        rw [hk, hk'] at hne
        have : k ≠ k' := fun hh => hne (by rw [hh])
        rw [idStr, hk']
        exact this
    rw [ih hrs hpw' _ hacc']
    rw [List.map_cons, hidr, hdoc, List.append_assoc]
    rfl

theorem assoc_find_map (k : String) (g : BDoc → String) (h : BDoc → Document) :
    ∀ l : List BDoc,
    (l.map (fun r => (g r, h r))).find? (fun p => p.1 == k)
      = (l.find? (fun r => g r == k)).map (fun r => (g r, h r)) := by
  intro l
  induction l with
  | nil => rfl
  | cons r rs ih =>
    simp only [List.map_cons, List.find?_cons]
    cases hc : g r == k <;> simp [hc, ih]

theorem find_matched_eq (keys : List String) (k : String) (hk : k ∈ keys) :
    ∀ st : List BDoc,
    (st.filter (matchPred keys)).find? (fun r => idStr r == k)
      = st.find? (fun r => getField r "_id" == some (.str k)) := by
  intro st
  induction st with
  | nil => rfl
  | cons r rs ih =>
    simp only [List.filter_cons, List.find?_cons]
    cases hm : matchPred keys r with
    | false =>
      have hng : (getField r "_id" == some (.str k)) = false := by
        cases hg : getField r "_id" with
        | none => rfl
        | some v =>
          cases v with
          | str s =>
            simp only [beq_eq_false_iff_ne, ne_eq, Option.some.injEq, BVal.str.injEq]
            intro hh
            rw [matchPred, hg, hh] at hm
            simp only [List.contains_eq_any_beq, List.any_eq_false] at hm
            exact (by simpa using hm k hk : False)
          | int n => simp
          | vec v => simp
          | sub d => simp
      simp only [Bool.false_eq_true, if_false, hng, ih]
    | true =>
      simp only [if_true, List.find?_cons]
      have hgk : ∃ k0, getField r "_id" = some (.str k0) := by
        rw [matchPred] at hm
        cases hg : getField r "_id" with
        | none => rw [hg] at hm; exact absurd hm (by simp)
        | some v =>
          cases v with
          | str s => exact ⟨s, rfl⟩
          | int n => rw [hg] at hm; exact absurd hm (by simp)
          | vec v => rw [hg] at hm; exact absurd hm (by simp)
          | sub d => rw [hg] at hm; exact absurd hm (by simp)
      obtain ⟨k0, hk0⟩ := hgk
      have hidr : idStr r = k0 := by rw [idStr, hk0]
      by_cases hkk : k0 = k
      · have h1 : (idStr r == k) = true := by simp [hidr, hkk]
        have h2 : (getField r "_id" == some (.str k)) = true := by
          simp [hk0, hkk]
        rw [h1, h2]
      · have h1 : (idStr r == k) = false := by simp [hidr, hkk]
        have h2 : (getField r "_id" == some (.str k)) = false := by
          simp only [beq_eq_false_iff_ne, ne_eq, hk0, Option.some.injEq, BVal.str.injEq]
          exact hkk
        rw [h1, h2, ih]

theorem mget_spec (tk : String) (st : List BDoc) (keys : List String)
    (htext : ∀ r ∈ st, matchPred keys r = true → ∃ t, getField r tk = some (.str t))
    (hid : (st.filter (matchPred keys)).Pairwise
      (fun a b => getField a "_id" ≠ getField b "_id"))
    (htk : tk ≠ "_id") :
    mget tk st keys = .ok (keys.map (fun k =>
      (st.find? (fun r => getField r "_id" == some (.str k))).map (docOf tk))) := by
  have hmatched : ∀ r ∈ st.filter (matchPred keys),
      (∃ t, getField r tk = some (.str t)) ∧ ∃ k, getField r "_id" = some (.str k) := by
    intro r hr
    have hmem := (List.mem_filter.mp hr).1
    have hm := (List.mem_filter.mp hr).2
    refine ⟨htext r hmem hm, ?_⟩
    rw [matchPred] at hm
    cases hg : getField r "_id" with
    | none => rw [hg] at hm; exact absurd hm (by simp)
    | some v =>
      cases v with
      | str s => exact ⟨s, rfl⟩
      | int n => rw [hg] at hm; exact absurd hm (by simp)
      | vec v => rw [hg] at hm; exact absurd hm (by simp)
      | sub d => rw [hg] at hm; exact absurd hm (by simp)
  have hfound := mgetFound_spec tk htk (st.filter (matchPred keys)) hmatched hid []
    (fun _ _ _ hp => absurd hp (List.not_mem_nil _))
  rw [mget]
  show (mgetFound tk (st.filter (matchPred keys)) []).bind _ = _
  rw [hfound]
  show Except.ok (keys.map _) = _
  congr 1
  refine List.map_congr_left ?_
  intro k hk
  rw [List.nil_append, assoc_find_map k idStr (docOf tk), find_matched_eq keys k hk st,
    Option.map_map]
  rfl

theorem dictInsert_fresh (d : BDoc) (k : String) (v : BVal)
    (h : ∀ p ∈ d, p.1 ≠ k) : dictInsert d k v = d ++ [(k, v)] := by
  rw [dictInsert, if_neg]
  intro hc
  rw [List.any_eq_true] at hc
  obtain ⟨p, hp, hpk⟩ := hc
  exact h p hp (by simpa using hpk)

theorem foldl_dictInsert_append (m : BDoc) :
    ∀ b : BDoc, (∀ q ∈ m, ∀ p ∈ b, p.1 ≠ q.1) → (m.map Prod.fst).Nodup →
    m.foldl (fun acc q => dictInsert acc q.1 q.2) b = b ++ m := by
  induction m with
  | nil => intro b _ _; simp
  | cons q qs ih =>
    intro b hfresh hnodup
    simp only [List.foldl_cons]
    have hq : dictInsert b q.1 q.2 = b ++ [(q.1, q.2)] :=
      dictInsert_fresh b q.1 q.2 (fun p hp => hfresh q (List.mem_cons_self q qs) p hp)
    rw [hq]
    rw [List.map_cons] at hnodup
    have hnd := List.nodup_cons.mp hnodup
    rw [ih (b ++ [(q.1, q.2)]) ?_ hnd.2]
    · simp
    · intro q' hq' p hp
      rcases List.mem_append.mp hp with hpb | hpq
      · exact hfresh q' (List.mem_cons_of_mem q hq') p hpb
      · rcases List.mem_singleton.mp hpq with rfl
        show q.1 ≠ q'.1
        intro hh
        exact hnd.1 (hh ▸ List.mem_map_of_mem Prod.fst hq')

theorem mkRecord_clean (tk k t : String) (m : BDoc) (htk : tk ≠ "_id")
    (hm : ∀ q ∈ m, q.1 ≠ "_id" ∧ q.1 ≠ tk) (hnodup : (m.map Prod.fst).Nodup) :
    mkRecord tk k ⟨t, m⟩ = ("_id", .str k) :: (tk, .str t) :: m := by
  rw [mkRecord]
  have h1 : dictInsert [] "_id" (.str k) = [("_id", .str k)] :=
    dictInsert_fresh [] "_id" (.str k) (fun p hp => absurd hp (List.not_mem_nil p))
  have h2 : dictInsert [("_id", BVal.str k)] tk (.str t)
      = [("_id", .str k), (tk, .str t)] := by
    refine dictInsert_fresh _ tk (.str t) ?_
    intro p hp
    rcases List.mem_singleton.mp hp with rfl
    exact fun hh => htk hh.symm
  show m.foldl (fun acc q => dictInsert acc q.1 q.2)
      (dictInsert (dictInsert [] "_id" (BVal.str k)) tk (BVal.str t)) = _
  rw [h1, h2, foldl_dictInsert_append m [("_id", BVal.str k), (tk, BVal.str t)] ?_ hnodup]
  · rfl
  · intro q hq p hp
    rcases List.mem_cons.mp hp with rfl | hp'
    · exact fun hh => (hm q hq).1 hh.symm
    · rcases List.mem_singleton.mp hp' with rfl
      exact fun hh => (hm q hq).2 hh.symm

theorem docOf_mkRecord (tk k t : String) (m : BDoc) (htk : tk ≠ "_id")
    (hm : ∀ q ∈ m, q.1 ≠ "_id" ∧ q.1 ≠ tk) (hnodup : (m.map Prod.fst).Nodup) :
    docOf tk (mkRecord tk k ⟨t, m⟩) = ⟨t, m⟩ := by
  rw [mkRecord_clean tk k t m htk hm hnodup, docOf]
  have hidtk : ("_id" == tk) = false := by
    simp only [beq_eq_false_iff_ne]
    exact fun hh => htk hh.symm
  have hget : getField (("_id", BVal.str k) :: (tk, BVal.str t) :: m) tk
      = some (.str t) := by
    rw [getField_cons, hidtk, if_neg (by simp), getField_cons]
    simp
  rw [hget]
  have herase1 : eraseField (("_id", BVal.str k) :: (tk, BVal.str t) :: m) tk
      = ("_id", BVal.str k) :: m := by
    show (if ("_id" == tk) = true then _ else _) = _
    rw [hidtk]
    simp only [Bool.false_eq_true, if_false]
    show _ :: (if (tk == tk) = true then m else _) = _
    simp
  rw [herase1]
  have herase2 : eraseField (("_id", BVal.str k) :: m) "_id" = m := by
    show (if ("_id" == "_id") = true then m else _) = m
    simp
  rw [herase2]
  rfl

/-- C2: `mget` returns one optional `Document` per input key, in input
order: keys with no matching record map to `none`, and keys whose record is
present map to the `Document` extracted from that record (its text field as
page content, the remaining fields minus `_id` as metadata) — which is
exactly what `insert_many` stored for metadata free of the reserved field
names. -/
theorem C2_mget (tk : String) (st : List BDoc) (keys : List String)
    (htext : ∀ r ∈ st, matchPred keys r = true → ∃ t, getField r tk = some (.str t))
    (hid : (st.filter (matchPred keys)).Pairwise
      (fun a b => getField a "_id" ≠ getField b "_id"))
    (htk : tk ≠ "_id") :
    mget tk st keys = .ok (keys.map (fun k =>
      (st.find? (fun r => getField r "_id" == some (.str k))).map (docOf tk)))
    ∧ ∀ (k t : String) (m : BDoc), (∀ q ∈ m, q.1 ≠ "_id" ∧ q.1 ≠ tk) →
        (m.map Prod.fst).Nodup →
        docOf tk (mkRecord tk k ⟨t, m⟩) = ⟨t, m⟩ :=
  ⟨mget_spec tk st keys htext hid htk,
   fun k t m hm hnodup => docOf_mkRecord tk k t m htk hm hnodup⟩

/-- Witness for C2 on a one-record store queried with a present and an
absent key. -/
theorem C2_witness :
    mget "page_content" [[("_id", BVal.str "a"), ("page_content", BVal.str "x")]]
        ["a", "zz"]
      = .ok (["a", "zz"].map (fun k =>
          ([[("_id", BVal.str "a"), ("page_content", BVal.str "x")]].find?
            (fun r => getField r "_id" == some (.str k))).map (docOf "page_content"))) :=
  (C2_mget "page_content" [[("_id", BVal.str "a"), ("page_content", BVal.str "x")]]
    ["a", "zz"]
    (by intro r hr _
        rcases List.mem_singleton.mp hr with rfl
        exact ⟨"x", rfl⟩)
    (by decide)
    (by decide)).1

theorem insertManyRun_ok (rs : List BDoc) :
    ∀ st : List BDoc,
    (∀ r ∈ rs, ∀ x ∈ st, getField x "_id" ≠ getField r "_id") →
    rs.Pairwise (fun a b => getField a "_id" ≠ getField b "_id") →
    insertManyRun st rs = (st ++ rs, none) := by
  induction rs with
  | nil => intro st _ _; simp [insertManyRun]
  | cons r rest ih =>
    intro st hdisj hpw
    have hc : st.any (fun x => getField x "_id" == getField r "_id") = false := by
      rw [List.any_eq_false]
      intro x hx hbe
      exact hdisj r (List.mem_cons_self r rest) x hx (by simpa using hbe)
    simp only [insertManyRun, insertRecord, hc, Bool.false_eq_true, if_false]
    rw [ih (st ++ [r]) ?_ (List.pairwise_cons.mp hpw).2]
    · simp
    · intro r' hr' x hx
      rcases List.mem_append.mp hx with hxs | hxr
      · exact hdisj r' (List.mem_cons_of_mem r hr') x hxs
      · rcases List.mem_singleton.mp hxr with rfl
        exact (List.pairwise_cons.mp hpw).1 r' hr'

theorem msetRun_ok (tk : String) (bl : List (List (String × Document))) :
    ∀ st : List BDoc,
    (∀ p ∈ bl.flatten, ∀ x ∈ st,
      getField x "_id" ≠ getField (mkRecord tk p.1 p.2) "_id") →
    (bl.flatten.map (fun p => mkRecord tk p.1 p.2)).Pairwise
      (fun a b => getField a "_id" ≠ getField b "_id") →
    msetRun tk st bl
      = ⟨st ++ bl.flatten.map (fun p => mkRecord tk p.1 p.2), bl.length, none⟩ := by
  induction bl with
  | nil => intro st _ _; simp [msetRun]
  | cons b bs ih =>
    intro st hdisj hpw
    rw [List.flatten_cons, List.map_append] at hpw
    have hpwb := hpw.sublist (List.sublist_append_left _ _)
    have hpwbs := hpw.sublist (List.sublist_append_right _ _)
    have hcross := (List.pairwise_append.mp hpw).2.2
    have hins : insert_many tk st b
        = (st ++ b.map (fun p => mkRecord tk p.1 p.2), none) := by
      rw [insert_many]
      refine insertManyRun_ok _ st ?_ hpwb
      intro r hr x hx
      obtain ⟨p, hp, rfl⟩ := List.mem_map.mp hr
      exact hdisj p (by rw [List.flatten_cons]; exact List.mem_append.mpr (Or.inl hp)) x hx
    have hdisj' : ∀ p ∈ bs.flatten, ∀ x ∈ st ++ b.map (fun p => mkRecord tk p.1 p.2),
        getField x "_id" ≠ getField (mkRecord tk p.1 p.2) "_id" := by
      intro p hp x hx
      rcases List.mem_append.mp hx with hxs | hxb
      · exact hdisj p (by rw [List.flatten_cons]; exact List.mem_append.mpr (Or.inr hp)) x hxs
      · exact hcross x hxb _ (List.mem_map_of_mem _ hp)
    have hrec := ih (st ++ b.map (fun p => mkRecord tk p.1 p.2)) hdisj' hpwbs
    have hstep : msetRun tk st (b :: bs)
        = ⟨(msetRun tk (st ++ b.map (fun p => mkRecord tk p.1 p.2)) bs).state,
           (msetRun tk (st ++ b.map (fun p => mkRecord tk p.1 p.2)) bs).calls + 1,
           (msetRun tk (st ++ b.map (fun p => mkRecord tk p.1 p.2)) bs).err⟩ := by
      simp only [msetRun]
      rw [hins]
    rw [hstep, hrec]
    simp [List.flatten_cons, List.append_assoc]

theorem find?_map_mkRecord (tk : String) :
    ∀ pairs : List (String × Document),
    (∀ p ∈ pairs, getField (mkRecord tk p.1 p.2) "_id" = some (.str p.1)) →
    (pairs.map Prod.fst).Nodup →
    ∀ p ∈ pairs, (pairs.map (fun p => mkRecord tk p.1 p.2)).find?
      (fun r => getField r "_id" == some (.str p.1)) = some (mkRecord tk p.1 p.2) := by
  intro pairs
  induction pairs with
  | nil => intro _ _ p hp; exact absurd hp (List.not_mem_nil p)
  | cons p0 ps ih =>
    intro hrec hnodup p hp
    rw [List.map_cons, List.find?_cons]
    rw [List.map_cons] at hnodup
    have hnd := List.nodup_cons.mp hnodup
    rcases List.mem_cons.mp hp with rfl | hps
    · have hb : (getField (mkRecord tk p.1 p.2) "_id" == some (BVal.str p.1)) = true := by
        simp [hrec p (List.mem_cons_self p ps)]
      rw [hb]
    · have hne : p0.1 ≠ p.1 := by
        intro hh
        exact hnd.1 (hh ▸ List.mem_map_of_mem Prod.fst hps)
      have hb : (getField (mkRecord tk p0.1 p0.2) "_id" == some (BVal.str p.1)) = false := by
        simp only [hrec p0 (List.mem_cons_self p0 ps), beq_eq_false_iff_ne, ne_eq,
          Option.some.injEq, BVal.str.injEq]
        exact hne
      rw [hb]
      exact ih (fun q hq => hrec q (List.mem_cons_of_mem _ hq)) hnd.2 p hps

/-- Corrected C3 (round trip): for a non-empty sequence of pairs with
pairwise-distinct keys absent from the store, whose metadata dictionaries do
not use the reserved field names (`_id` and the text key), `mset` succeeds
and `mget` on the same keys returns exactly the stored Documents, in order. -/
theorem C3_roundtrip (tk : String) (st : List BDoc)
    (pairs : List (String × Document)) (bsz : Nat)
    (hne : pairs ≠ []) (hbsz : 0 < bsz) (htk : tk ≠ "_id")
    (hkeys : (pairs.map Prod.fst).Nodup)
    (hdisj : ∀ x ∈ st, ∀ p ∈ pairs, getField x "_id" ≠ some (.str p.1))
    (hclean : ∀ p ∈ pairs, (∀ q ∈ p.2.metadata, q.1 ≠ "_id" ∧ q.1 ≠ tk)
      ∧ (p.2.metadata.map Prod.fst).Nodup) :
    (mset tk st pairs bsz).err = none
    ∧ mget tk (mset tk st pairs bsz).state (pairs.map Prod.fst)
        = .ok (pairs.map (fun p => some p.2)) := by
  have hrecshape : ∀ p ∈ pairs, mkRecord tk p.1 p.2
      = ("_id", .str p.1) :: (tk, .str p.2.page_content) :: p.2.metadata :=
    fun p hp => mkRecord_clean tk p.1 p.2.page_content p.2.metadata htk
      (hclean p hp).1 (hclean p hp).2
  have hrecid : ∀ p ∈ pairs, getField (mkRecord tk p.1 p.2) "_id" = some (.str p.1) := by
    intro p hp
    rw [hrecshape p hp, getField_cons]
    simp
  have hrectext : ∀ p ∈ pairs,
      getField (mkRecord tk p.1 p.2) tk = some (.str p.2.page_content) := by
    intro p hp
    rw [hrecshape p hp, getField_cons]
    have h1 : ("_id" == tk) = false := by
      simp only [beq_eq_false_iff_ne]
      exact fun hh => htk hh.symm
    rw [h1, if_neg (by simp), getField_cons]
    simp
  have hpwrecs : (pairs.map (fun p => mkRecord tk p.1 p.2)).Pairwise
      (fun a b => getField a "_id" ≠ getField b "_id") := by
    refine List.pairwise_map.mpr ?_
    have hpwfst : pairs.Pairwise (fun a b => a.1 ≠ b.1) := List.pairwise_map.mp hkeys
    have hpwmem := List.Pairwise.and_mem.mp hpwfst
    refine hpwmem.imp ?_
    intro a b ⟨ha, hb, hab⟩
    rw [hrecid a ha, hrecid b hb]
    intro hh
    exact hab (by simpa using hh)
  have hflat : (msetBatches bsz pairs).flatten = pairs := msetBatches_flatten bsz hbsz pairs
  have hmsetrun : msetRun tk st (msetBatches bsz pairs)
      = ⟨st ++ pairs.map (fun p => mkRecord tk p.1 p.2),
          (msetBatches bsz pairs).length, none⟩ := by
    have h := msetRun_ok tk (msetBatches bsz pairs) st ?_ ?_
    · rw [hflat] at h; exact h
    · rw [hflat]
      intro p hp x hx
      rw [hrecid p hp]
      exact hdisj x hx p hp
    · rw [hflat]; exact hpwrecs
  have hmset : mset tk st pairs bsz
      = ⟨st ++ pairs.map (fun p => mkRecord tk p.1 p.2),
          (msetBatches bsz pairs).length, none⟩ := by
    rw [mset_run_eq tk st pairs bsz hne hbsz, hmsetrun]
  have hstnomatch : ∀ x ∈ st, matchPred (pairs.map Prod.fst) x = false := by
    intro x hx
    rw [matchPred]
    cases hg : getField x "_id" with
    | none => rfl
    | some v =>
      cases v with
      | str s =>
        cases hc : (pairs.map Prod.fst).contains s with
        | false => exact hc
        | true =>
          rw [List.contains_eq_any_beq, List.any_eq_true] at hc
          obtain ⟨a, ha, hba⟩ := hc
          obtain ⟨p, hp, rfl⟩ := List.mem_map.mp ha
          have hsa : s = p.1 := by simpa using hba
          exact absurd (hg.trans (by rw [hsa])) (hdisj x hx p hp)
      | int n => rfl
      | vec v => rfl
      | sub d => rfl
  constructor
  · rw [hmset]
  · rw [hmset]
    show mget tk (st ++ pairs.map (fun p => mkRecord tk p.1 p.2)) (pairs.map Prod.fst) = _
    have htext : ∀ r ∈ st ++ pairs.map (fun p => mkRecord tk p.1 p.2),
        matchPred (pairs.map Prod.fst) r = true → ∃ t, getField r tk = some (.str t) := by
      intro r hr hm
      rcases List.mem_append.mp hr with hrs | hrn
      · exact absurd hm (by rw [hstnomatch r hrs]; simp)
      · obtain ⟨p, hp, rfl⟩ := List.mem_map.mp hrn
        exact ⟨p.2.page_content, hrectext p hp⟩
    have hid : ((st ++ pairs.map (fun p => mkRecord tk p.1 p.2)).filter
        (matchPred (pairs.map Prod.fst))).Pairwise
        (fun a b => getField a "_id" ≠ getField b "_id") := by
      rw [List.filter_append]
      have h1 : st.filter (matchPred (pairs.map Prod.fst)) = [] := by
        rw [List.filter_eq_nil_iff]
        intro x hx hm
        rw [hstnomatch x hx] at hm
        exact absurd hm (by simp)
      have h2 : (pairs.map (fun p => mkRecord tk p.1 p.2)).filter
          (matchPred (pairs.map Prod.fst)) = pairs.map (fun p => mkRecord tk p.1 p.2) := by
        rw [List.filter_eq_self]
        intro r hr
        obtain ⟨p, hp, rfl⟩ := List.mem_map.mp hr
        rw [matchPred, hrecid p hp]
        show (pairs.map Prod.fst).contains p.1 = true
        rw [List.contains_eq_any_beq, List.any_eq_true]
        exact ⟨p.1, List.mem_map_of_mem Prod.fst hp, by simp⟩
      rw [h1, h2, List.nil_append]
      exact hpwrecs
    rw [mget_spec tk _ _ htext hid htk]
    congr 1
    rw [List.map_map]
    refine List.map_congr_left ?_
    intro p hp
    show ((st ++ pairs.map (fun p => mkRecord tk p.1 p.2)).find?
        (fun r => getField r "_id" == some (.str p.1))).map (docOf tk) = some p.2
    rw [List.find?_append]
    have hstnone : st.find? (fun r => getField r "_id" == some (.str p.1)) = none := by
      rw [List.find?_eq_none]
      intro x hx hbe
      exact hdisj x hx p hp (by simpa using hbe)
    rw [hstnone, Option.none_or, find?_map_mkRecord tk pairs hrecid hkeys p hp]
    show some (docOf tk (mkRecord tk p.1 p.2)) = some p.2
    have hd := docOf_mkRecord tk p.1 p.2.page_content p.2.metadata htk
      (hclean p hp).1 (hclean p hp).2
    exact congrArg some hd

/-- Counterexample to C3 as stated: a Document whose metadata uses the text
field name. Its keys collide with nothing (the store is empty), yet the
dict-literal built by `insert_many` lets the metadata entry override the text
field, so `mget` returns a different Document. -/
theorem C3_counterexample :
    (mset "page_content" [] [("k", ⟨"t", [("page_content", BVal.str "x")]⟩)] 100000).err
      = none
    ∧ mget "page_content"
        (mset "page_content" [] [("k", ⟨"t", [("page_content", BVal.str "x")]⟩)] 100000).state
        ["k"]
      ≠ .ok [some ⟨"t", [("page_content", BVal.str "x")]⟩] := by
  constructor
  · rfl
  · decide

/-- Witness for C3 on one clean pair over the empty store. -/
theorem C3_witness :
    (mset "page_content" [] [("a", ⟨"x", [("m", BVal.str "1")]⟩)] 7).err = none
    ∧ mget "page_content"
        (mset "page_content" [] [("a", ⟨"x", [("m", BVal.str "1")]⟩)] 7).state
        ([("a", (⟨"x", [("m", BVal.str "1")]⟩ : Document))].map Prod.fst)
      = .ok ([("a", (⟨"x", [("m", BVal.str "1")]⟩ : Document))].map (fun p => some p.2)) :=
  C3_roundtrip "page_content" [] [("a", ⟨"x", [("m", BVal.str "1")]⟩)] 7
    (by decide) (by decide) (by decide) (by decide)
    (by intro x hx; exact absurd hx (List.not_mem_nil x))
    (by decide)

theorem mem_dedupByKey {α κ : Type} [BEq κ] (key : α → κ) :
    ∀ (seen : List κ) (l : List α) (x : α), x ∈ dedupByKey key seen l → x ∈ l := by
  intro seen l
  induction l generalizing seen with
  | nil => intro x hx; exact absurd hx (List.not_mem_nil x)
  | cons y ys ih =>
    intro x hx
    simp only [dedupByKey] at hx
    cases hc : seen.contains (key y) with
    | true =>
      rw [hc, if_pos rfl] at hx
      exact List.mem_cons_of_mem y (ih seen x hx)
    | false =>
      rw [hc] at hx
      simp only [Bool.false_eq_true, if_false, List.mem_cons] at hx
      rcases hx with rfl | hx'
      · exact List.mem_cons_self x ys
      · exact List.mem_cons_of_mem y (ih (key y :: seen) x hx')

theorem dedupByKey_not_seen {α κ : Type} [BEq κ] [LawfulBEq κ] (key : α → κ) :
    ∀ (seen : List κ) (l : List α) (x : α), x ∈ dedupByKey key seen l →
    seen.contains (key x) = false := by
  intro seen l
  induction l generalizing seen with
  | nil => intro x hx; exact absurd hx (List.not_mem_nil x)
  | cons y ys ih =>
    intro x hx
    simp only [dedupByKey] at hx
    cases hc : seen.contains (key y) with
    | true =>
      rw [hc, if_pos rfl] at hx
      exact ih seen x hx
    | false =>
      rw [hc] at hx
      simp only [Bool.false_eq_true, if_false, List.mem_cons] at hx
      rcases hx with rfl | hx'
      · exact hc
      · have h1 := ih (key y :: seen) x hx'
        rw [List.contains_cons] at h1
        exact (Bool.or_eq_false_iff.mp h1).2

theorem dedupByKey_pairwise {α κ : Type} [BEq κ] [LawfulBEq κ] (key : α → κ) :
    ∀ (seen : List κ) (l : List α),
    (dedupByKey key seen l).Pairwise (fun a b => key a ≠ key b) := by
  intro seen l
  induction l generalizing seen with
  | nil => exact List.Pairwise.nil
  | cons y ys ih =>
    simp only [dedupByKey]
    cases hc : seen.contains (key y) with
    | true => simpa using ih seen
    | false =>
      simp only [Bool.false_eq_true, if_false]
      refine List.pairwise_cons.mpr ⟨?_, ih (key y :: seen)⟩
      intro z hz
      have h1 := dedupByKey_not_seen key (key y :: seen) ys z hz
      rw [List.contains_cons] at h1
      have h2 := (Bool.or_eq_false_iff.mp h1).1
      intro hh
      rw [hh] at h2
      simp at h2

theorem insertDesc_mem (x : BDoc × Int) :
    ∀ (l : List (BDoc × Int)) (z : BDoc × Int), z ∈ insertDesc x l → z = x ∨ z ∈ l := by
  intro l
  induction l with
  | nil =>
    intro z hz
    simp only [insertDesc, List.mem_singleton] at hz
    exact Or.inl hz
  | cons y ys ih =>
    intro z hz
    simp only [insertDesc] at hz
    by_cases hlt : x.2 < y.2
    · rw [if_pos hlt] at hz
      rcases List.mem_cons.mp hz with rfl | hz'
      · exact Or.inr (List.mem_cons_self z ys)
      · rcases ih z hz' with rfl | hz2
        · exact Or.inl rfl
        · exact Or.inr (List.mem_cons_of_mem y hz2)
    · rw [if_neg hlt] at hz
      rcases List.mem_cons.mp hz with rfl | hz'
      · exact Or.inl rfl
      · exact Or.inr hz'

theorem insertDesc_sorted (x : BDoc × Int) :
    ∀ l : List (BDoc × Int), l.Pairwise (fun a b => b.2 ≤ a.2) →
    (insertDesc x l).Pairwise (fun a b => b.2 ≤ a.2) := by
  intro l
  induction l with
  | nil => intro _; simp [insertDesc]
  | cons y ys ih =>
    intro h
    have hhead := (List.pairwise_cons.mp h).1
    have htail := (List.pairwise_cons.mp h).2
    simp only [insertDesc]
    by_cases hlt : x.2 < y.2
    · rw [if_pos hlt]
      refine List.pairwise_cons.mpr ⟨?_, ih htail⟩
      intro z hz
      rcases insertDesc_mem x ys z hz with rfl | hz'
      · exact le_of_lt hlt
      · exact hhead z hz'
    · rw [if_neg hlt]
      refine List.pairwise_cons.mpr ⟨?_, h⟩
      intro z hz
      rcases List.mem_cons.mp hz with rfl | hz'
      · exact le_of_not_lt hlt
      · exact le_trans (hhead z hz') (le_of_not_lt hlt)

theorem sortDesc_sorted :
    ∀ l : List (BDoc × Int), (sortDesc l).Pairwise (fun a b => b.2 ≤ a.2) := by
  intro l
  induction l with
  | nil => exact List.Pairwise.nil
  | cons x xs ih => exact insertDesc_sorted x (sortDesc xs) ih

theorem dedupByKey_map_snd (key : BDoc → Option BVal) :
    ∀ (l : List (BDoc × BDoc)) (seen : List (Option BVal)),
    (dedupByKey (fun p => key p.2) seen l).map Prod.snd
      = dedupByKey key seen (l.map Prod.snd) := by
  intro l
  induction l with
  | nil => intro seen; rfl
  | cons x xs ih =>
    intro seen
    simp only [dedupByKey, List.map_cons]
    cases hc : seen.contains (key x.2) with
    | true =>
      rw [if_pos rfl, if_pos rfl]
      exact ih seen
    | false =>
      simp only [Bool.false_eq_true, if_false, List.map_cons]
      rw [ih (key x.2 :: seen)]

theorem unwind_lookup_snd (idk : String) (coll : List BDoc) :
    ∀ docs : List BDoc,
    (unwindStage (lookupStage idk coll docs)).map Prod.snd
      = docs.flatMap (childJoins idk coll) := by
  intro docs
  induction docs with
  | nil => rfl
  | cons c cs ih =>
    simp only [lookupStage, unwindStage, List.map_cons, List.flatMap_cons,
      List.map_append, List.map_map]
    refine congrArg₂ (· ++ ·) ?_ ?_
    · show (childJoins idk coll c).map (Prod.snd ∘ fun r => (c, r)) = childJoins idk coll c
      have : (Prod.snd ∘ fun r : BDoc => (c, r)) = id := rfl
      rw [this, List.map_id]
    · exact ih

theorem beq_symm_eq {κ : Type} [BEq κ] [LawfulBEq κ] (a b : κ) :
    (a == b) = (b == a) := by
  by_cases h : a = b
  · subst h; rfl
  · have h1 : (a == b) = false := by
      simp only [beq_eq_false_iff_ne]; exact h
    have h2 : (b == a) = false := by
      simp only [beq_eq_false_iff_ne]; exact fun hh => h hh.symm
    rw [h1, h2]

theorem keepFirst_foldl_eq (key : BDoc → Option BVal) :
    ∀ (l : List BDoc) (acc : List BDoc) (seen : List (Option BVal)),
    (∀ r : BDoc, acc.any (fun s => key s == key r) = seen.contains (key r)) →
    l.foldl (fun acc r =>
        if acc.any (fun s => key s == key r) then acc else acc ++ [r]) acc
      = acc ++ dedupByKey key seen l := by
  intro l
  induction l with
  | nil => intro acc seen _; simp [dedupByKey]
  | cons x xs ih =>
    intro acc seen hinv
    simp only [List.foldl_cons, dedupByKey]
    rw [hinv x]
    cases hc : seen.contains (key x) with
    | true =>
      rw [if_pos rfl, if_pos rfl]
      exact ih acc seen hinv
    | false =>
      simp only [Bool.false_eq_true, if_false]
      have hinv' : ∀ r : BDoc, (acc ++ [x]).any (fun s => key s == key r)
          = (key x :: seen).contains (key r) := by
        intro r
        rw [List.any_append, hinv r, List.contains_cons, List.any_cons, List.any_nil,
          Bool.or_false, beq_symm_eq (key x) (key r), Bool.or_comm]
      rw [ih (acc ++ [x]) (key x :: seen) hinv']
      simp

theorem keepFirst_eq_dedup (key : BDoc → Option BVal) (l : List BDoc) :
    keepFirstByKey key l = dedupByKey key [] l := by
  rw [keepFirstByKey, keepFirst_foldl_eq key l [] [] (fun r => rfl), List.nil_append]

/-- C6: the sequence of records produced by the pipeline equals the
first-occurrence deduplication (by parent `_id`) of the joined-parent stream
taken in candidate rank order — the grouping stage keeps the first occurrence
of each parent and emits groups in that input order — and the candidate
stream itself is ranked by non-increasing similarity score. -/
theorem C6_dedup_order (rv : Retriever) (q : List Int) :
    pipelineRecords rv q
      = keepFirstByKey (fun r => getField r "_id") (parentStream rv q)
    ∧ (vectorSearch rv.embedding_key rv.limit q rv.collection).Pairwise
        (fun a b => b.2 ≤ a.2) := by
  constructor
  · rw [keepFirst_eq_dedup (fun r => getField r "_id") (parentStream rv q)]
    show ((dedupByKey (fun p => getField p.2 "_id") []
        (unwindStage (lookupStage rv.id_key rv.collection (rankedCandidates rv q)))).map
        (fun p => (getField p.2 "_id", p.2))).map (fun p => p.2) = _
    rw [List.map_map]
    show (dedupByKey (fun p => getField p.2 "_id") []
        (unwindStage (lookupStage rv.id_key rv.collection (rankedCandidates rv q)))).map
        Prod.snd = _
    rw [dedupByKey_map_snd (fun r => getField r "_id"), unwind_lookup_snd]
    rfl
  · rw [vectorSearch]
    exact (sortDesc_sorted _).sublist (List.take_sublist _ _)

theorem mem_unwind_lookup (idk : String) (coll : List BDoc) :
    ∀ (docs : List BDoc) (pr : BDoc × BDoc),
    pr ∈ unwindStage (lookupStage idk coll docs) →
    pr.2 ∈ childJoins idk coll pr.1 := by
  intro docs
  induction docs with
  | nil => intro pr hpr; exact absurd hpr (List.not_mem_nil pr)
  | cons c cs ih =>
    intro pr hpr
    have hsplit : unwindStage (lookupStage idk coll (c :: cs))
        = (childJoins idk coll c).map (fun r => (c, r))
          ++ unwindStage (lookupStage idk coll cs) := by
      simp [unwindStage, lookupStage]
    rw [hsplit] at hpr
    rcases List.mem_append.mp hpr with hl | hr
    · obtain ⟨r0, hr0, rfl⟩ := List.mem_map.mp hl
      exact hr0
    · exact ih pr hr

/-- C1: the end-to-end scenario — a parent `p1` without the foreign-key
field and two children referencing `p1` with different similarities — yields
exactly one Document, whose identifier is `p1` and whose metadata has no
embedding field; and in general every record the pipeline returns is a
collection record lacking the foreign-key path `metadata.<id_key>`, with
pairwise-distinct identifiers (deduplication by identifier). -/
theorem C1_parent_retrieval :
    getRelevantDocuments rvEx qEx
      = .ok [⟨"parent text", [("_id", .str "p1"), ("title", .str "T")]⟩]
    ∧ getField [("_id", BVal.str "p1"), ("title", BVal.str "T")] "embedding" = none
    ∧ ∀ (rv : Retriever) (q : List Int),
        (∀ r ∈ pipelineRecords rv q,
          r ∈ rv.collection ∧ hasPath r "metadata" rv.id_key = false)
        ∧ (pipelineRecords rv q).Pairwise
            (fun a b => getField a "_id" ≠ getField b "_id") := by
  refine ⟨by decide, by decide, ?_⟩
  intro rv q
  constructor
  · intro r hr
    simp only [pipelineRecords, replaceRootStage, groupStage, List.map_map,
      List.mem_map] at hr
    obtain ⟨pr, hpr, rfl⟩ := hr
    have hmem := mem_dedupByKey (fun p => getField p.2 "_id") [] _ pr hpr
    have hjoin := mem_unwind_lookup rv.id_key rv.collection (rankedCandidates rv q) pr hmem
    have hfil := List.mem_filter.mp hjoin
    refine ⟨hfil.1, ?_⟩
    have hpred := hfil.2
    rw [Bool.and_eq_true] at hpred
    have h2 := hpred.2
    rw [Bool.not_eq_true'] at h2
    exact h2
  · simp only [pipelineRecords, replaceRootStage, groupStage, List.map_map]
    refine List.pairwise_map.mpr ?_
    exact dedupByKey_pairwise (fun p : BDoc × BDoc => getField p.2 "_id") [] _

/-- Witness for C1's general part, instantiated at the scenario: the parent
record returned by the pipeline is a collection record lacking the
foreign-key path. -/
theorem C1_witness :
    p1rec ∈ rvEx.collection ∧ hasPath p1rec "metadata" rvEx.id_key = false :=
  (C1_parent_retrieval.2.2 rvEx qEx).1 p1rec (by decide)

/-- Witness for C6 at the scenario retriever: the pipeline output equals the
first-occurrence dedup of the joined-parent stream. -/
theorem C6_witness :
    pipelineRecords rvEx qEx
      = keepFirstByKey (fun r => getField r "_id") (parentStream rvEx qEx) :=
  (C6_dedup_order rvEx qEx).1
